import Mathlib

/-!
Verification of the release-manifest updater
(`.github/scripts/update_manifest.py` of the jellyfin-subsro repository).

The script reads `manifest.json` (a JSON array whose first element is an
object with a `versions` array), builds a new version-entry object, replaces
the first entry with a matching `version` field or inserts the new entry at
the front, and writes the whole document back with `json.dump(..., indent=4)`
followed by a single newline.

We shallowly embed the JSON data model and the script's behaviour.  Python
runtime crashes (KeyError / TypeError / IndexError on malformed documents)
are modelled by `Except.error ()`.
-/

/-- A JSON value as produced by Python's `json.load`.  Objects are ordered
association lists, matching the insertion-order semantics of Python dicts
(`json.load` preserves document key order).  Numbers are restricted to
integers; the manifest and every value the script constructs or inspects is
a string, array or object, so this loses nothing relevant. -/
inductive Json where
  | null : Json
  | bool : Bool → Json
  | num : Int → Json
  | str : String → Json
  | arr : List Json → Json
  | obj : List (String × Json) → Json
deriving Repr

/-- First-match key lookup in an object's entry list (Python `d[k]` on a
dict decoded from JSON, whose keys are unique). -/
def lookupKvs : List (String × Json) → String → Option Json
  | [], _ => none
  | (k', v) :: rest, k => if k' = k then some v else lookupKvs rest k

/-- Python `v[k]` on a JSON value: succeeds only when `v` is an object
containing the key; every other case raises (TypeError / KeyError). -/
def Json.lookup : Json → String → Option Json
  | Json.obj kvs, k => lookupKvs kvs k
  | _, _ => none

/-- Python `d[k] = v` on a dict: overwrite the value at an existing key in
place (key order unchanged), otherwise append the new key at the end. -/
def setField : List (String × Json) → String → Json → List (String × Json)
  | [], k, v => [(k, v)]
  | (k', v') :: rest, k, v =>
    if k' = k then (k, v) :: rest else (k', v') :: setField rest k v

/-- The download URL built by the f-string
`https://github.com/replsv/jellyfin-subsro/releases/download/<tag_name>/jellyfin-subsro-<version>.zip`. -/
def sourceUrlFor (tag_name version : String) : String :=
  "https://github.com/replsv/jellyfin-subsro/releases/download/" ++ tag_name ++
    "/jellyfin-subsro-" ++ version ++ ".zip"

/-- The `new_version` dict literal of `update_manifest`, with its fields in
source order. -/
def mkNewVersion (version checksum timestamp changelog tag_name : String) : Json :=
  Json.obj
    [ ("version", Json.str version)
    , ("changelog", Json.str changelog)
    , ("targetAbi", Json.str "10.11.5.0")
    , ("sourceUrl", Json.str (sourceUrlFor tag_name version))
    , ("checksum", Json.str checksum)
    , ("timestamp", Json.str timestamp) ]

/-- Python `j == s` between a JSON-decoded value and a string: true exactly
when the value is that string (a non-string decoded value never equals a
Python `str`). -/
def jsonEqStr (j : Json) (s : String) : Bool :=
  match j with
  | Json.str t => t = s
  | _ => false

/-- The scan
`for i, v in enumerate(versions): if v["version"] == version: existing_index = i; break`.
Returns the first index whose entry's `"version"` field equals the given
version string, `none` if no entry matches, and errors when the loop reaches
an entry on which `v["version"]` raises (not an object, or key missing)
before finding a match. -/
def findExistingIndex (version : String) : List Json → Except Unit (Option Nat)
  | [] => Except.ok none
  | v :: rest =>
    match v.lookup "version" with
    | none => Except.error ()
    | some jv =>
      if jsonEqStr jv version then Except.ok (some 0)
      else
        match findExistingIndex version rest with
        | Except.ok (some i) => Except.ok (some (i + 1))
        | Except.ok none => Except.ok none
        | Except.error e => Except.error e

/-- The fixed relative path the script reads from and writes to. -/
def manifestPath : String := "manifest.json"

/-- The in-memory effect of `update_manifest` on the parsed manifest
document: build `new_version`, look it up in `manifest[0]["versions"]`,
replace in place (`versions[existing_index] = new_version`) or insert at the
front (`versions.insert(0, new_version)`), and store the list back into
`manifest[0]["versions"]`.  `Except.error ()` models the unhandled Python
exception raised when the document does not have the expected shape. -/
def update_manifest (manifest : Json)
    (version checksum timestamp changelog tag_name : String) :
    Except Unit Json :=
  let new_version := mkNewVersion version checksum timestamp changelog tag_name
  match manifest with
  | Json.arr (Json.obj kvs :: rest) =>
    match lookupKvs kvs "versions" with
    | some (Json.arr versions) =>
      match findExistingIndex version versions with
      | Except.error _ => Except.error ()
      | Except.ok (some i) =>
        Except.ok (Json.arr
          (Json.obj (setField kvs "versions" (Json.arr (versions.set i new_version))) :: rest))
      | Except.ok none =>
        Except.ok (Json.arr
          (Json.obj (setField kvs "versions" (Json.arr (new_version :: versions))) :: rest))
    | _ => Except.error ()
  | _ => Except.error ()

/-- The usage line printed when the argument count is wrong. -/
def usageMessage : String :=
  "Usage: update_manifest.py <version> <checksum> <timestamp> <changelog> <tag_name>"

/-- The confirmation line `Updated manifest.json with version <version>`. -/
def confirmationMessage (version : String) : String :=
  "Updated manifest.json with version " ++ version

/-- Observable outcome of one process run: exit status, lines printed to
standard output, whether the manifest file was opened for reading, and the
manifest document stored in the file afterwards. -/
structure RunResult where
  exitCode : Nat
  stdout : List String
  fileRead : Bool
  finalManifest : Json
deriving Repr

/-- The `__main__` block: with `len(sys.argv) != 6` print the usage message
and exit 1 without touching the file; otherwise run `update_manifest` on the
five positional arguments.  `argv` includes the program name at index 0 and
`manifest` is the parsed current content of `manifest.json`.  `none` models
a run killed by an unhandled exception inside `update_manifest`. -/
def runMain (argv : List String) (manifest : Json) : Option RunResult :=
  if argv.length ≠ 6 then
    some ⟨1, [usageMessage], false, manifest⟩
  else
    match argv with
    | _ :: version :: checksum :: timestamp :: changelog :: tag_name :: [] =>
      match update_manifest manifest version checksum timestamp changelog tag_name with
      | Except.ok m' => some ⟨0, [confirmationMessage version], true, m'⟩
      | Except.error _ => none
    | _ => none

/-- Character of a decimal digit. -/
def digitChar (n : Nat) : Char := Char.ofNat (48 + n)

/-- Decimal digits of a natural number, most significant first. -/
def natDigits (n : Nat) : List Char :=
  if n < 10 then [digitChar n]
  else natDigits (n / 10) ++ [digitChar (n % 10)]
decreasing_by exact Nat.div_lt_self (by omega) (by omega)

/-- Decimal rendering of an integer, as Python prints JSON numbers. -/
def intRepr (i : Int) : String :=
  if i < 0 then "-" ++ String.mk (natDigits i.natAbs) else String.mk (natDigits i.natAbs)

/-- Character of a hexadecimal digit, lowercase as Python emits them. -/
def hexDigit (n : Nat) : Char :=
  if n < 10 then Char.ofNat (48 + n) else Char.ofNat (87 + n)

/-- Four-digit lowercase hex rendering used in JSON escapes. -/
def hex4 (n : Nat) : String :=
  String.mk [hexDigit (n / 4096 % 16), hexDigit (n / 256 % 16),
    hexDigit (n / 16 % 16), hexDigit (n % 16)]

/-- Escaping of one character inside a JSON string literal, following
Python's default encoder (`ensure_ascii=True`): the two-character escapes,
numeric escapes for other control characters, identity on printable ASCII,
and hex escapes (with surrogate pairs beyond the BMP) for everything else. -/
def escapeChar (c : Char) : String :=
  if c = '"' then "\\\""
  else if c = '\\' then "\\\\"
  else if c = '\n' then "\\n"
  else if c = '\r' then "\\r"
  else if c = '\t' then "\\t"
  else if c = Char.ofNat 8 then "\\b"
  else if c = Char.ofNat 12 then "\\f"
  else if c.toNat < 32 ∨ c.toNat > 126 then
    if c.toNat ≤ 65535 then "\\u" ++ hex4 c.toNat
    else
      "\\u" ++ hex4 (55296 + (c.toNat - 65536) / 1024) ++
        "\\u" ++ hex4 (56320 + (c.toNat - 65536) % 1024)
  else String.singleton c

/-- A JSON string literal with quotes and escapes. -/
def encodeString (s : String) : String :=
  "\"" ++ String.join (s.data.map escapeChar) ++ "\""

/-- An indentation prefix of `n` spaces. -/
def spaces (n : Nat) : String := String.mk (List.replicate n ' ')

mutual

/-- Serialization of a JSON value at nesting depth `level`, following
`json.dump(manifest, f, indent=4)`: empty containers collapse to two
characters, non-empty containers put every element on its own line indented
by four more spaces, with the item separator a comma and the key separator
a colon-space. -/
def dumpJson : Nat → Json → String
  | _, Json.null => "null"
  | _, Json.bool true => "true"
  | _, Json.bool false => "false"
  | _, Json.num n => intRepr n
  | _, Json.str s => encodeString s
  | _, Json.arr [] => "[]"
  | level, Json.arr (x :: xs) =>
    "[\n" ++ dumpElems (level + 1) x xs ++ "\n" ++ spaces (4 * level) ++ "]"
  | _, Json.obj [] => "\x7b\x7d"
  | level, Json.obj (e :: es) =>
    "\x7b\n" ++ dumpFields (level + 1) e es ++ "\n" ++ spaces (4 * level) ++ "\x7d"
termination_by _ j => sizeOf j
decreasing_by all_goals (simp_wf; try omega)

/-- The comma-and-newline separated items of a non-empty array, each
prefixed by its indentation. -/
def dumpElems : Nat → Json → List Json → String
  | level, x, [] => spaces (4 * level) ++ dumpJson level x
  | level, x, y :: ys =>
    spaces (4 * level) ++ dumpJson level x ++ ",\n" ++ dumpElems level y ys
termination_by _ x xs => sizeOf x + sizeOf xs
decreasing_by all_goals (simp_wf; try omega)

/-- The comma-and-newline separated `"key": value` fields of a non-empty
object, in entry order, each prefixed by its indentation. -/
def dumpFields : Nat → (String × Json) → List (String × Json) → String
  | level, (k, v), [] => spaces (4 * level) ++ encodeString k ++ ": " ++ dumpJson level v
  | level, (k, v), f :: fs =>
    spaces (4 * level) ++ encodeString k ++ ": " ++ dumpJson level v ++ ",\n" ++
      dumpFields level f fs
termination_by _ e es => sizeOf e + sizeOf es
decreasing_by all_goals (simp_wf; try omega)

end

/-- The bytes written to `manifest.json`:
`json.dump(manifest, f, indent=4)` followed by `f.write('\n')`. -/
def writtenFile (manifest : Json) : String := dumpJson 0 manifest ++ "\n"

/-- The `versions` array of a well-formed manifest document,
`manifest[0]["versions"]`. -/
def versionsOf (m : Json) : Option (List Json) :=
  match m with
  | Json.arr (Json.obj kvs :: _) =>
    match lookupKvs kvs "versions" with
    | some (Json.arr vs) => some vs
    | _ => none
  | _ => none

/-- Whether an entry's `"version"` field holds exactly the string `s`
(the loop condition `v["version"] == version`). -/
def hasVer (s : String) (v : Json) : Bool :=
  match v.lookup "version" with
  | some jv => jsonEqStr jv s
  | none => false

/-- The last character of a string, if any. -/
def lastChar (s : String) : Option Char := s.data.getLast?

/-- How many newline characters end the string. -/
def trailingNewlineCount (s : String) : Nat :=
  (s.data.reverse.takeWhile (fun c => c = '\n')).length

/-- A concrete well-formed manifest document with one existing version
entry, used to instantiate the theorems below. -/
def sampleEntry : Json :=
  Json.obj
    [ ("version", Json.str "1.0")
    , ("changelog", Json.str "initial release")
    , ("targetAbi", Json.str "10.11.5.0")
    , ("sourceUrl", Json.str "https://example.invalid/jellyfin-subsro-1.0.zip")
    , ("checksum", Json.str "c0")
    , ("timestamp", Json.str "t0") ]

/-- A concrete manifest: one object carrying a plugin name and a singleton
`versions` array. -/
def sampleManifest : Json :=
  Json.arr [Json.obj [("name", Json.str "SubsRO"), ("versions", Json.arr [sampleEntry])]]

/-- First of two duplicate entries sharing a `"version"` value. -/
def dupEntryA : Json :=
  Json.obj [("version", Json.str "1.0"), ("checksum", Json.str "a")]

/-- Second of two duplicate entries sharing a `"version"` value. -/
def dupEntryB : Json :=
  Json.obj [("version", Json.str "1.0"), ("checksum", Json.str "b")]

/-- A manifest whose `versions` array holds two entries with the same
`"version"` value, exercising the duplicate behaviour. -/
def dupManifest : Json :=
  Json.arr [Json.obj [("versions", Json.arr [dupEntryA, dupEntryB])]]

/-! ### Association-list lemmas -/

/-- After storing `v` at key `k`, looking `k` up returns `v`. -/
theorem lookupKvs_setField_self (kvs : List (String × Json)) (k : String) (v : Json) :
    lookupKvs (setField kvs k v) k = some v := by
  induction kvs with
  | nil => simp [setField, lookupKvs]
  | cons e rest ih =>
    obtain ⟨k', v'⟩ := e
    by_cases hk : k' = k
    · simp [setField, lookupKvs, hk]
    · simp [setField, lookupKvs, hk, ih]

/-- Storing at key `k` leaves lookups of other keys unchanged. -/
theorem lookupKvs_setField_ne (kvs : List (String × Json)) (k k' : String) (v : Json)
    (h : k' ≠ k) : lookupKvs (setField kvs k v) k' = lookupKvs kvs k' := by
  induction kvs with
  | nil => simp [setField, lookupKvs, Ne.symm h]
  | cons e rest ih =>
    obtain ⟨k₀, v₀⟩ := e
    by_cases hk : k₀ = k
    · subst hk
      simp [setField, lookupKvs, Ne.symm h]
    · simp only [setField, if_neg hk, lookupKvs]
      by_cases hk' : k₀ = k'
      · simp [hk']
      · simp [hk', ih]

/-- Storing at a key that is present keeps the key sequence unchanged. -/
theorem mapFst_setField (kvs : List (String × Json)) (k : String) (v w : Json)
    (h : lookupKvs kvs k = some w) :
    (setField kvs k v).map Prod.fst = kvs.map Prod.fst := by
  induction kvs with
  | nil => simp [lookupKvs] at h
  | cons e rest ih =>
    obtain ⟨k₀, v₀⟩ := e
    by_cases hk : k₀ = k
    · simp [setField, hk]
    · simp only [lookupKvs, if_neg hk] at h
      simp [setField, hk, ih h]

/-- Storing at key `k` does not disturb the entries of other keys. -/
theorem filter_setField (kvs : List (String × Json)) (k : String) (v : Json) :
    (setField kvs k v).filter (fun p => p.1 != k) = kvs.filter (fun p => p.1 != k) := by
  induction kvs with
  | nil => simp [setField]
  | cons e rest ih =>
    obtain ⟨k₀, v₀⟩ := e
    by_cases hk : k₀ = k
    · simp [setField, hk]
    · simp [setField, hk, ih]

/-- Two consecutive stores at the same key collapse to the second. -/
theorem setField_setField (kvs : List (String × Json)) (k : String) (v w : Json) :
    setField (setField kvs k v) k w = setField kvs k w := by
  induction kvs with
  | nil => simp [setField]
  | cons e rest ih =>
    obtain ⟨k₀, v₀⟩ := e
    by_cases hk : k₀ = k
    · simp [setField, hk]
    · simp [setField, hk, ih]

/-! ### Properties of the linear scan -/

/-- When the scan completes without finding a match, no entry of the list
has a matching `"version"` field. -/
theorem find_none_spec (version : String) (vs : List Json)
    (h : findExistingIndex version vs = Except.ok none) :
    ∀ v ∈ vs, hasVer version v = false := by
  induction vs with
  | nil => simp
  | cons v rest ih =>
    intro w hw
    unfold findExistingIndex at h
    split at h
    · cases h
    · rename_i jv heq
      split at h
      · cases h
      · rename_i hc
        simp only [Bool.not_eq_true] at hc
        split at h
        · cases h
        · rename_i hrec
          rcases List.mem_cons.mp hw with hwv | hwrest
          · subst hwv
            simp [hasVer, heq, hc]
          · exact ih hrec w hwrest
        · cases h

/-- When the scan returns index `i`, the entry at `i` matches and every
earlier entry was inspected (its `"version"` field exists) and did not
match. -/
theorem find_some_spec (version : String) (vs : List Json) (i : Nat)
    (h : findExistingIndex version vs = Except.ok (some i)) :
    (∃ e, vs[i]? = some e ∧ hasVer version e = true) ∧
      ∀ j, j < i → ∃ w jv, vs[j]? = some w ∧
        w.lookup "version" = some jv ∧ jsonEqStr jv version = false := by
  induction vs generalizing i with
  | nil => simp [findExistingIndex] at h
  | cons v rest ih =>
    unfold findExistingIndex at h
    split at h
    · cases h
    · rename_i jv heq
      split at h
      · rename_i hc
        have hi : i = 0 := by cases h; rfl
        subst hi
        refine ⟨⟨v, by simp, by simp [hasVer, heq, hc]⟩, ?_⟩
        intro j hj
        omega
      · rename_i hc
        simp only [Bool.not_eq_true] at hc
        split at h
        · rename_i i' hrec
          have hi : i = i' + 1 := by cases h; rfl
          subst hi
          obtain ⟨⟨e, he, hme⟩, hpre⟩ := ih i' hrec
          refine ⟨⟨e, by simpa using he, hme⟩, ?_⟩
          intro j hj
          cases j with
          | zero => exact ⟨v, jv, by simp, heq, hc⟩
          | succ j' =>
            obtain ⟨w, jw, hw, hlw, hcw⟩ := hpre j' (by omega)
            exact ⟨w, jw, by simpa using hw, hlw, hcw⟩
        · cases h
        · cases h

/-- Conversely, the scan returns exactly the first matching index when the
entries before it all carry a non-matching `"version"` field. -/
theorem find_complete (version : String) (vs : List Json) (i : Nat) (e : Json)
    (he : vs[i]? = some e) (hme : hasVer version e = true)
    (hpre : ∀ j, j < i → ∃ w jv, vs[j]? = some w ∧
      w.lookup "version" = some jv ∧ jsonEqStr jv version = false) :
    findExistingIndex version vs = Except.ok (some i) := by
  induction vs generalizing i with
  | nil => simp at he
  | cons v rest ih =>
    cases i with
    | zero =>
      have hv : v = e := by simpa using he
      subst hv
      unfold hasVer at hme
      unfold findExistingIndex
      cases hl : v.lookup "version" with
      | none => rw [hl] at hme; cases hme
      | some jv =>
        rw [hl] at hme
        simp only [] at hme
        simp [hme]
    | succ i' =>
      obtain ⟨w, jw, hw, hlw, hcw⟩ := hpre 0 (by omega)
      have hv : v = w := by simpa using hw
      subst hv
      unfold findExistingIndex
      rw [hlw]
      simp only [hcw, Bool.false_eq_true, if_false]
      rw [ih i' (by simpa using he) (fun j hj => by
        obtain ⟨w', jw', hw', hlw', hcw'⟩ := hpre (j + 1) (by omega)
        exact ⟨w', jw', by simpa using hw', hlw', hcw'⟩)]

/-! ### Counting lemmas -/

/-- Overwriting an entry with one that satisfies the predicate in the same
way leaves the predicate count unchanged. -/
theorem countP_set_congr (vs : List Json) (i : Nat) (a nv : Json) (p : Json → Bool)
    (hi : vs[i]? = some a) (hp : p a = p nv) :
    (vs.set i nv).countP p = vs.countP p := by
  induction vs generalizing i with
  | nil => simp at hi
  | cons v rest ih =>
    cases i with
    | zero =>
      have hv : v = a := by simpa using hi
      subst hv
      simp [List.countP_cons, hp]
    | succ i' =>
      have hi' : rest[i']? = some a := by simpa using hi
      simp [List.countP_cons, ih i' hi']

/-- With at most one entry satisfying the predicate, two satisfying
positions coincide. -/
theorem countP_le_one_unique (p : Json → Bool) (vs : List Json)
    (h : vs.countP p ≤ 1) (i j : Nat) (a b : Json)
    (hi : vs[i]? = some a) (hj : vs[j]? = some b)
    (hpa : p a = true) (hpb : p b = true) : i = j := by
  induction vs generalizing i j with
  | nil => simp at hi
  | cons v rest ih =>
    rw [List.countP_cons] at h
    cases i with
    | zero =>
      cases j with
      | zero => rfl
      | succ j' =>
        have hv : v = a := by simpa using hi
        subst hv
        have hz : rest.countP p = 0 := by
          rw [hpa] at h
          simpa using h
        have hb : b ∈ rest := List.getElem?_mem (by simpa using hj)
        have := (List.countP_eq_zero.mp hz) b hb
        simp [hpb] at this
    | succ i' =>
      cases j with
      | zero =>
        have hv : v = b := by simpa using hj
        subst hv
        have hz : rest.countP p = 0 := by
          rw [hpb] at h
          simpa using h
        have ha : a ∈ rest := List.getElem?_mem (by simpa using hi)
        have := (List.countP_eq_zero.mp hz) a ha
        simp [hpa] at this
      | succ j' =>
        have : i' = j' :=
          ih (by omega) i' j' (by simpa using hi) (by simpa using hj)
        omega

/-- Two distinct positions satisfying the predicate give a count of at
least two. -/
theorem two_matches_le_countP (p : Json → Bool) (vs : List Json) (i j : Nat)
    (a b : Json) (hij : i ≠ j) (hi : vs[i]? = some a) (hj : vs[j]? = some b)
    (hpa : p a = true) (hpb : p b = true) : 2 ≤ vs.countP p := by
  induction vs generalizing i j with
  | nil => simp at hi
  | cons v rest ih =>
    rw [List.countP_cons]
    cases i with
    | zero =>
      cases j with
      | zero => exact absurd rfl hij
      | succ j' =>
        have hv : v = a := by simpa using hi
        subst hv
        rw [hpa]
        have hb : b ∈ rest := List.getElem?_mem (by simpa using hj)
        have : 0 < rest.countP p := List.countP_pos_iff.mpr ⟨b, hb, hpb⟩
        exact (by omega : 2 ≤ List.countP p rest + 1)
    | succ i' =>
      cases j with
      | zero =>
        have hv : v = b := by simpa using hj
        subst hv
        rw [hpb]
        have ha : a ∈ rest := List.getElem?_mem (by simpa using hi)
        have : 0 < rest.countP p := List.countP_pos_iff.mpr ⟨a, ha, hpa⟩
        exact (by omega : 2 ≤ List.countP p rest + 1)
      | succ j' =>
        have : 2 ≤ rest.countP p :=
          ih i' j' (by omega) (by simpa using hi) (by simpa using hj)
        omega

/-! ### The new version entry -/

/-- The entry the script builds carries the supplied version string. -/
theorem lookup_mkNewVersion_version (version checksum timestamp changelog tag_name : String) :
    (mkNewVersion version checksum timestamp changelog tag_name).lookup "version" =
      some (Json.str version) := by
  simp [mkNewVersion, Json.lookup, lookupKvs]

/-- The built entry matches a scanned version string exactly when it is the
supplied one. -/
theorem hasVer_mkNewVersion (s version checksum timestamp changelog tag_name : String) :
    hasVer s (mkNewVersion version checksum timestamp changelog tag_name) =
      decide (version = s) := by
  simp only [hasVer, lookup_mkNewVersion_version, jsonEqStr]

/-! ### Shape of a successful update -/

/-- A successful `update_manifest` run decomposes into the document parts
it read and the updated `versions` array it stored back: either the scan
found no match and the new entry was pushed at the front, or it found index
`i` and the entry there was overwritten. -/
theorem update_ok_decompose (m : Json)
    (version checksum timestamp changelog tag_name : String) (m' : Json)
    (h : update_manifest m version checksum timestamp changelog tag_name = Except.ok m') :
    ∃ kvs rest vs,
      m = Json.arr (Json.obj kvs :: rest) ∧
      lookupKvs kvs "versions" = some (Json.arr vs) ∧
      ∃ vs',
        m' = Json.arr (Json.obj (setField kvs "versions" (Json.arr vs')) :: rest) ∧
        ((findExistingIndex version vs = Except.ok none ∧
            vs' = mkNewVersion version checksum timestamp changelog tag_name :: vs) ∨
          (∃ i, findExistingIndex version vs = Except.ok (some i) ∧
            vs' = vs.set i (mkNewVersion version checksum timestamp changelog tag_name))) := by
  unfold update_manifest at h
  split at h
  · rename_i kvs rest
    split at h
    · rename_i vs hlk
      split at h
      · cases h
      · rename_i i hfind
        refine ⟨kvs, rest, vs, rfl, hlk, vs.set i _, ?_, Or.inr ⟨i, hfind, rfl⟩⟩
        cases h
        rfl
      · rename_i hfind
        refine ⟨kvs, rest, vs, rfl, hlk, _ :: vs, ?_, Or.inl ⟨hfind, rfl⟩⟩
        cases h
        rfl
    · cases h
  · cases h

/-- Reading `manifest[0]["versions"]` off the decomposed document shape. -/
theorem versionsOf_shape (kvs : List (String × Json)) (rest : List Json) (vs : List Json)
    (hlk : lookupKvs kvs "versions" = some (Json.arr vs)) :
    versionsOf (Json.arr (Json.obj kvs :: rest)) = some vs := by
  simp [versionsOf, hlk]

/-- The updated document's `versions` array is the stored list. -/
theorem versionsOf_updated (kvs : List (String × Json)) (rest : List Json) (vs' : List Json) :
    versionsOf (Json.arr (Json.obj (setField kvs "versions" (Json.arr vs')) :: rest)) =
      some vs' := by
  simp [versionsOf, lookupKvs_setField_self]

/-- All metadata fields of the built entry, read back. -/
theorem mkNewVersion_fields (version checksum timestamp changelog tag_name : String) :
    (mkNewVersion version checksum timestamp changelog tag_name).lookup "checksum" =
        some (Json.str checksum) ∧
      (mkNewVersion version checksum timestamp changelog tag_name).lookup "changelog" =
        some (Json.str changelog) ∧
      (mkNewVersion version checksum timestamp changelog tag_name).lookup "timestamp" =
        some (Json.str timestamp) ∧
      (mkNewVersion version checksum timestamp changelog tag_name).lookup "sourceUrl" =
        some (Json.str (sourceUrlFor tag_name version)) :=
  ⟨by simp [mkNewVersion, Json.lookup, lookupKvs],
    by simp [mkNewVersion, Json.lookup, lookupKvs],
    by simp [mkNewVersion, Json.lookup, lookupKvs],
    by simp [mkNewVersion, Json.lookup, lookupKvs]⟩

/-! ### Claim theorems -/

/-- C5: whenever the number of positional arguments after the program name
is not exactly 5 (so `len(sys.argv) ≠ 6`), the run prints the usage message
to standard output, exits with status 1, never opens the manifest file for
reading, and leaves its content unchanged. -/
theorem runMain_wrong_argc_usage_exit1 (argv : List String) (m : Json)
    (h : argv.length ≠ 6) :
    runMain argv m = some ⟨1, [usageMessage], false, m⟩ := by
  simp [runMain, h]

theorem runMain_wrong_argc_usage_exit1_witness :
    (["update_manifest.py", "1.1", "abc", "t1"] : List String).length ≠ 6 ∧
      runMain ["update_manifest.py", "1.1", "abc", "t1"] sampleManifest =
        some ⟨1, [usageMessage], false, sampleManifest⟩ :=
  ⟨by decide, runMain_wrong_argc_usage_exit1 _ _ (by decide)⟩

/-- C6: the `sourceUrl` field of the constructed version entry is the
release-download URL obtained by splicing the tag name and version into the
fixed GitHub path. -/
theorem mkNewVersion_sourceUrl_eq (version checksum timestamp changelog tag_name : String) :
    (mkNewVersion version checksum timestamp changelog tag_name).lookup "sourceUrl" =
      some (Json.str
        ("https://github.com/replsv/jellyfin-subsro/releases/download/" ++ tag_name ++
          "/jellyfin-subsro-" ++ version ++ ".zip")) := by
  simp [mkNewVersion, Json.lookup, lookupKvs, sourceUrlFor]

/-- C7: the `targetAbi` field of the constructed version entry is the
constant string `10.11.5.0`, whatever the five arguments are. -/
theorem mkNewVersion_targetAbi_const (version checksum timestamp changelog tag_name : String) :
    (mkNewVersion version checksum timestamp changelog tag_name).lookup "targetAbi" =
      some (Json.str "10.11.5.0") := by
  simp [mkNewVersion, Json.lookup, lookupKvs]

/-- C1: starting from a manifest whose `versions` array holds at most one
entry per version value, a successful update leaves exactly one entry whose
`version` field equals the supplied version, and that entry carries the
supplied checksum, changelog and timestamp and the computed source URL. -/
theorem update_manifest_exactly_one_matching_entry (m : Json)
    (version checksum timestamp changelog tag_name : String) (m' : Json)
    (h : update_manifest m version checksum timestamp changelog tag_name = Except.ok m')
    (vs : List Json) (hvs : versionsOf m = some vs)
    (hdup : ∀ s, vs.countP (hasVer s) ≤ 1) :
    ∃ vs', versionsOf m' = some vs' ∧
      vs'.countP (hasVer version) = 1 ∧
      ∀ v ∈ vs', hasVer version v = true →
        v = mkNewVersion version checksum timestamp changelog tag_name ∧
        v.lookup "checksum" = some (Json.str checksum) ∧
        v.lookup "changelog" = some (Json.str changelog) ∧
        v.lookup "timestamp" = some (Json.str timestamp) ∧
        v.lookup "sourceUrl" = some (Json.str (sourceUrlFor tag_name version)) := by
  obtain ⟨kvs, rest, vs₀, hm, hlk, vs', hm', hcase⟩ :=
    update_ok_decompose m version checksum timestamp changelog tag_name m' h
  rw [hm, versionsOf_shape kvs rest vs₀ hlk] at hvs
  cases hvs
  refine ⟨vs', by rw [hm']; exact versionsOf_updated kvs rest vs', ?_, ?_⟩
  · rcases hcase with ⟨hfind, hvs'⟩ | ⟨i, hfind, hvs'⟩
    · subst hvs'
      have hnone := find_none_spec version vs hfind
      have h0 : vs.countP (hasVer version) = 0 :=
        List.countP_eq_zero.mpr (fun a ha => by simp [hnone a ha])
      rw [List.countP_cons, h0, hasVer_mkNewVersion]
      simp
    · subst hvs'
      obtain ⟨⟨e, he, hme⟩, hpre⟩ := find_some_spec version vs i hfind
      have hcnt : (vs.set i (mkNewVersion version checksum timestamp changelog tag_name)).countP
          (hasVer version) = vs.countP (hasVer version) :=
        countP_set_congr vs i e _ _ he (by rw [hme, hasVer_mkNewVersion]; simp)
      have hle := hdup version
      have hge : 0 < vs.countP (hasVer version) :=
        List.countP_pos_iff.mpr ⟨e, List.getElem?_mem he, hme⟩
      omega
  · intro v hv hmatch
    have hveq : v = mkNewVersion version checksum timestamp changelog tag_name := by
      rcases hcase with ⟨hfind, hvs'⟩ | ⟨i, hfind, hvs'⟩
      · subst hvs'
        rcases List.mem_cons.mp hv with rfl | hvmem
        · rfl
        · exact absurd hmatch (by simp [find_none_spec version vs hfind v hvmem])
      · subst hvs'
        obtain ⟨⟨e, he, hme⟩, hpre⟩ := find_some_spec version vs i hfind
        obtain ⟨k, hk⟩ := List.mem_iff_getElem?.mp hv
        by_cases hki : k = i
        · subst hki
          have hilen : k < vs.length := by
            rcases List.getElem?_eq_some_iff.mp he with ⟨hlt, _⟩
            exact hlt
          rw [List.getElem?_set_self hilen] at hk
          exact (Option.some.injEq _ _).mp hk.symm
        · rw [List.getElem?_set_ne (fun hh => hki hh.symm)] at hk
          have := countP_le_one_unique (hasVer version) vs (hdup version) k i v e hk he hmatch hme
          exact absurd this hki
    subst hveq
    exact ⟨rfl, mkNewVersion_fields version checksum timestamp changelog tag_name⟩

/-- A matching entry's `"version"` field is literally the scanned string. -/
theorem hasVer_true_lookup (version : String) (e : Json) (h : hasVer version e = true) :
    e.lookup "version" = some (Json.str version) := by
  unfold hasVer at h
  cases hl : e.lookup "version" with
  | none => rw [hl] at h; cases h
  | some jv =>
    rw [hl] at h
    simp only [] at h
    cases jv with
    | str t =>
      simp only [jsonEqStr, decide_eq_true_eq] at h
      subst h
      rfl
    | null => simp [jsonEqStr] at h
    | bool b => simp [jsonEqStr] at h
    | num n => simp [jsonEqStr] at h
    | arr xs => simp [jsonEqStr] at h
    | obj kvs => simp [jsonEqStr] at h

/-- The scan's result is the unique first-matching index. -/
theorem find_first_match_unique (version : String) (vs : List Json) (i : Nat) (e : Json)
    (he : vs[i]? = some e) (hme : hasVer version e = true)
    (hfirst : ∀ j, j < i → ∀ w, vs[j]? = some w → hasVer version w = false)
    (i₀ : Nat) (hfind : findExistingIndex version vs = Except.ok (some i₀)) : i₀ = i := by
  obtain ⟨⟨e₀, he₀, hme₀⟩, hpre⟩ := find_some_spec version vs i₀ hfind
  rcases Nat.lt_trichotomy i₀ i with hlt | heq | hgt
  · exact absurd hme₀ (by simp [hfirst i₀ hlt e₀ he₀])
  · exact heq
  · obtain ⟨w, jv, hw, hlw, hcw⟩ := hpre i hgt
    rw [he] at hw
    cases hw
    rw [hasVer_true_lookup version e hme] at hlw
    cases hlw
    simp [jsonEqStr] at hcw

/-- Unfolding a run of `update_manifest` on a document of the expected
shape, in terms of the scan's outcome. -/
theorem update_manifest_shape_eq (kvs : List (String × Json)) (rest vs : List Json)
    (version checksum timestamp changelog tag_name : String)
    (hlk : lookupKvs kvs "versions" = some (Json.arr vs)) :
    update_manifest (Json.arr (Json.obj kvs :: rest))
        version checksum timestamp changelog tag_name =
      match findExistingIndex version vs with
      | Except.error _ => Except.error ()
      | Except.ok (some i) =>
        Except.ok (Json.arr (Json.obj (setField kvs "versions"
          (Json.arr (vs.set i (mkNewVersion version checksum timestamp changelog tag_name)))) :: rest))
      | Except.ok none =>
        Except.ok (Json.arr (Json.obj (setField kvs "versions"
          (Json.arr (mkNewVersion version checksum timestamp changelog tag_name :: vs))) :: rest)) := by
  simp only [update_manifest, hlk]

/-- C2: on success, when no existing entry matches the supplied version the
new entry lands at index 0 and every pre-existing entry shifts back one
position; when an entry matches, the first matching index is overwritten in
place and the array length is unchanged. -/
theorem update_manifest_insert_or_replace_position (m : Json)
    (version checksum timestamp changelog tag_name : String) (m' : Json)
    (h : update_manifest m version checksum timestamp changelog tag_name = Except.ok m')
    (vs : List Json) (hvs : versionsOf m = some vs)
    (vs' : List Json) (hvs' : versionsOf m' = some vs') :
    ((∀ v ∈ vs, hasVer version v = false) →
        vs' = mkNewVersion version checksum timestamp changelog tag_name :: vs ∧
        vs'[0]? = some (mkNewVersion version checksum timestamp changelog tag_name) ∧
        ∀ k, vs'[k + 1]? = vs[k]?) ∧
      (∀ i e, vs[i]? = some e → hasVer version e = true →
        (∀ j, j < i → ∀ w, vs[j]? = some w → hasVer version w = false) →
        vs' = vs.set i (mkNewVersion version checksum timestamp changelog tag_name) ∧
        vs'.length = vs.length ∧
        vs'[i]? = some (mkNewVersion version checksum timestamp changelog tag_name)) := by
  obtain ⟨kvs, rest, vs₀, hm, hlk, vs₁, hm', hcase⟩ :=
    update_ok_decompose m version checksum timestamp changelog tag_name m' h
  rw [hm, versionsOf_shape kvs rest vs₀ hlk] at hvs
  cases hvs
  rw [hm', versionsOf_updated kvs rest vs₁] at hvs'
  cases hvs'
  constructor
  · intro hnomatch
    rcases hcase with ⟨hfind, hvs₁⟩ | ⟨i, hfind, hvs₁⟩
    · subst hvs₁
      exact ⟨rfl, by simp, fun k => by simp⟩
    · obtain ⟨⟨e, he, hme⟩, hpre⟩ := find_some_spec version vs i hfind
      exact absurd hme (by simp [hnomatch e (List.getElem?_mem he)])
  · intro i e he hme hfirst
    rcases hcase with ⟨hfind, hvs₁⟩ | ⟨i₀, hfind, hvs₁⟩
    · exact absurd hme
        (by simp [find_none_spec version vs hfind e (List.getElem?_mem he)])
    · have hii : i₀ = i := find_first_match_unique version vs i e he hme hfirst i₀ hfind
      subst hii
      subst hvs₁
      have hilen : i₀ < vs.length := by
        rcases List.getElem?_eq_some_iff.mp he with ⟨hlt, _⟩
        exact hlt
      exact ⟨rfl, by simp, by simp [List.getElem?_set_self hilen]⟩

/-- C4: a successful update preserves the invariant that the `versions`
array holds at most one entry per version value, and it never deletes:
every version value present before the update is still present after it. -/
theorem update_manifest_at_most_one_and_preserves (m : Json)
    (version checksum timestamp changelog tag_name : String) (m' : Json)
    (h : update_manifest m version checksum timestamp changelog tag_name = Except.ok m')
    (vs : List Json) (hvs : versionsOf m = some vs)
    (hdup : ∀ s, vs.countP (hasVer s) ≤ 1) :
    ∃ vs', versionsOf m' = some vs' ∧
      (∀ s, vs'.countP (hasVer s) ≤ 1) ∧
      (∀ s, (∃ v ∈ vs, hasVer s v = true) → ∃ v ∈ vs', hasVer s v = true) := by
  obtain ⟨kvs, rest, vs₀, hm, hlk, vs', hm', hcase⟩ :=
    update_ok_decompose m version checksum timestamp changelog tag_name m' h
  rw [hm, versionsOf_shape kvs rest vs₀ hlk] at hvs
  cases hvs
  refine ⟨vs', by rw [hm']; exact versionsOf_updated kvs rest vs', ?_, ?_⟩
  · intro s
    rcases hcase with ⟨hfind, hvs'⟩ | ⟨i, hfind, hvs'⟩
    · subst hvs'
      rw [List.countP_cons, hasVer_mkNewVersion]
      by_cases hs : version = s
      · subst hs
        have h0 : vs.countP (hasVer version) = 0 :=
          List.countP_eq_zero.mpr
            (fun a ha => by simp [find_none_spec version vs hfind a ha])
        simp [h0]
      · simp [hs, hdup s]
    · subst hvs'
      obtain ⟨⟨e, he, hme⟩, hpre⟩ := find_some_spec version vs i hfind
      have hp : hasVer s e = hasVer s (mkNewVersion version checksum timestamp changelog tag_name) := by
        rw [hasVer_mkNewVersion]
        simp only [hasVer, hasVer_true_lookup version e hme, jsonEqStr]
      rw [countP_set_congr vs i e _ _ he hp]
      exact hdup s
  · intro s ⟨v, hvmem, hvmatch⟩
    rcases hcase with ⟨hfind, hvs'⟩ | ⟨i, hfind, hvs'⟩
    · subst hvs'
      exact ⟨v, List.mem_cons_of_mem _ hvmem, hvmatch⟩
    · subst hvs'
      obtain ⟨⟨e, he, hme⟩, hpre⟩ := find_some_spec version vs i hfind
      obtain ⟨k, hk⟩ := List.mem_iff_getElem?.mp hvmem
      by_cases hki : k = i
      · subst hki
        rw [he] at hk
        cases hk
        have hs : version = s := by
          have := hvmatch
          rw [hasVer] at this
          rw [hasVer_true_lookup version v hme] at this
          simpa [jsonEqStr] using this
        subst hs
        have hilen : k < vs.length := by
          rcases List.getElem?_eq_some_iff.mp he with ⟨hlt, _⟩
          exact hlt
        refine ⟨mkNewVersion version checksum timestamp changelog tag_name, ?_, ?_⟩
        · exact List.getElem?_mem (List.getElem?_set_self hilen)
        · rw [hasVer_mkNewVersion]; simp
      · refine ⟨v, ?_, hvmatch⟩
        have hk' : (vs.set i (mkNewVersion version checksum timestamp changelog tag_name))[k]? =
            some v := by
          rw [List.getElem?_set_ne (fun hh => hki hh.symm)]
          exact hk
        exact List.getElem?_mem hk'

/-- C9: when the pre-existing array contains several entries for the
supplied version, only the first (lowest-index) one is overwritten; every
later duplicate is untouched, so the result still holds at least two
matching entries for that version value. -/
theorem update_manifest_duplicates_keep_later (m : Json)
    (version checksum timestamp changelog tag_name : String) (m' : Json)
    (h : update_manifest m version checksum timestamp changelog tag_name = Except.ok m')
    (vs : List Json) (hvs : versionsOf m = some vs)
    (i : Nat) (e : Json) (he : vs[i]? = some e) (hme : hasVer version e = true)
    (hfirst : ∀ j, j < i → ∀ w, vs[j]? = some w → hasVer version w = false)
    (j : Nat) (f : Json) (hij : i < j) (hjf : vs[j]? = some f)
    (hmf : hasVer version f = true) :
    ∃ vs', versionsOf m' = some vs' ∧
      vs' = vs.set i (mkNewVersion version checksum timestamp changelog tag_name) ∧
      vs'[j]? = some f ∧
      (∀ k, k ≠ i → vs'[k]? = vs[k]?) ∧
      2 ≤ vs'.countP (hasVer version) := by
  obtain ⟨kvs, rest, vs₀, hm, hlk, vs', hm', hcase⟩ :=
    update_ok_decompose m version checksum timestamp changelog tag_name m' h
  rw [hm, versionsOf_shape kvs rest vs₀ hlk] at hvs
  cases hvs
  refine ⟨vs', by rw [hm']; exact versionsOf_updated kvs rest vs', ?_⟩
  rcases hcase with ⟨hfind, hvs'⟩ | ⟨i₀, hfind, hvs'⟩
  · exact absurd hme
      (by simp [find_none_spec version vs hfind e (List.getElem?_mem he)])
  · have hii : i₀ = i := find_first_match_unique version vs i e he hme hfirst i₀ hfind
    subst hii
    subst hvs'
    have hilen : i₀ < vs.length := by
      rcases List.getElem?_eq_some_iff.mp he with ⟨hlt, _⟩
      exact hlt
    have hunch : ∀ k, k ≠ i₀ →
        (vs.set i₀ (mkNewVersion version checksum timestamp changelog tag_name))[k]? = vs[k]? :=
      fun k hk => List.getElem?_set_ne (fun hh => hk hh.symm)
    have hj' : (vs.set i₀ (mkNewVersion version checksum timestamp changelog tag_name))[j]? =
        some f := by
      rw [hunch j (by omega)]
      exact hjf
    refine ⟨rfl, hj', hunch, ?_⟩
    refine two_matches_le_countP (hasVer version) _ i₀ j
      (mkNewVersion version checksum timestamp changelog tag_name) f (by omega) ?_ hj' ?_ hmf
    · exact List.getElem?_set_self hilen
    · rw [hasVer_mkNewVersion]; simp

/-- A run on a well-shaped document whose scan finds index `i`. -/
theorem update_manifest_found_eq (kvs : List (String × Json)) (rest vs : List Json)
    (version checksum timestamp changelog tag_name : String) (i : Nat)
    (hlk : lookupKvs kvs "versions" = some (Json.arr vs))
    (hfind : findExistingIndex version vs = Except.ok (some i)) :
    update_manifest (Json.arr (Json.obj kvs :: rest))
        version checksum timestamp changelog tag_name =
      Except.ok (Json.arr (Json.obj (setField kvs "versions"
        (Json.arr (vs.set i (mkNewVersion version checksum timestamp changelog tag_name)))) :: rest)) := by
  simp only [update_manifest, hlk, hfind]

/-- A run on a well-shaped document whose scan finds no match. -/
theorem update_manifest_notfound_eq (kvs : List (String × Json)) (rest vs : List Json)
    (version checksum timestamp changelog tag_name : String)
    (hlk : lookupKvs kvs "versions" = some (Json.arr vs))
    (hfind : findExistingIndex version vs = Except.ok none) :
    update_manifest (Json.arr (Json.obj kvs :: rest))
        version checksum timestamp changelog tag_name =
      Except.ok (Json.arr (Json.obj (setField kvs "versions"
        (Json.arr (mkNewVersion version checksum timestamp changelog tag_name :: vs))) :: rest)) := by
  simp only [update_manifest, hlk, hfind]

/-- C3: running the update twice with identical arguments changes nothing
the second time: the second run succeeds, returns the same in-memory
document, and therefore rewrites the same serialized file content. -/
theorem update_manifest_idempotent (m : Json)
    (version checksum timestamp changelog tag_name : String) (m₁ : Json)
    (h : update_manifest m version checksum timestamp changelog tag_name = Except.ok m₁) :
    update_manifest m₁ version checksum timestamp changelog tag_name = Except.ok m₁ ∧
      ∃ m₂, update_manifest m₁ version checksum timestamp changelog tag_name = Except.ok m₂ ∧
        writtenFile m₂ = writtenFile m₁ := by
  obtain ⟨kvs, rest, vs, hm, hlk, vs', hm', hcase⟩ :=
    update_ok_decompose m version checksum timestamp changelog tag_name m₁ h
  have hlk₁ : lookupKvs (setField kvs "versions" (Json.arr vs')) "versions" =
      some (Json.arr vs') := lookupKvs_setField_self kvs "versions" (Json.arr vs')
  have hmain : update_manifest m₁ version checksum timestamp changelog tag_name =
      Except.ok m₁ := by
    rcases hcase with ⟨hfind, hvs'⟩ | ⟨i, hfind, hvs'⟩
    · subst hvs'
      have hfind₂ : findExistingIndex version
          (mkNewVersion version checksum timestamp changelog tag_name :: vs) =
          Except.ok (some 0) :=
        find_complete version _ 0 (mkNewVersion version checksum timestamp changelog tag_name)
          (by simp) (by rw [hasVer_mkNewVersion]; simp) (fun j hj => absurd hj (by omega))
      rw [hm', update_manifest_found_eq _ _ _ version checksum timestamp changelog tag_name 0
        hlk₁ hfind₂]
      rw [show (mkNewVersion version checksum timestamp changelog tag_name :: vs).set 0
          (mkNewVersion version checksum timestamp changelog tag_name) =
          mkNewVersion version checksum timestamp changelog tag_name :: vs from rfl]
      rw [setField_setField]
    · subst hvs'
      obtain ⟨⟨e, he, hme⟩, hpre⟩ := find_some_spec version vs i hfind
      have hilen : i < vs.length := by
        rcases List.getElem?_eq_some_iff.mp he with ⟨hlt, _⟩
        exact hlt
      have hfind₂ : findExistingIndex version
          (vs.set i (mkNewVersion version checksum timestamp changelog tag_name)) =
          Except.ok (some i) :=
        find_complete version _ i (mkNewVersion version checksum timestamp changelog tag_name)
          (List.getElem?_set_self hilen) (by rw [hasVer_mkNewVersion]; simp)
          (fun j hj => by
            obtain ⟨w, jw, hw, hlw, hcw⟩ := hpre j hj
            refine ⟨w, jw, ?_, hlw, hcw⟩
            rw [List.getElem?_set_ne (by omega)]
            exact hw)
      rw [hm', update_manifest_found_eq _ _ _ version checksum timestamp changelog tag_name i
        hlk₁ hfind₂]
      rw [List.set_set, setField_setField]
  exact ⟨hmain, m₁, hmain, rfl⟩

/-- C10: a successful update only touches the `versions` slot of the first
document element: every later document element is carried over unchanged,
the first object keeps its key order and every non-`versions` field, and
inside `versions` only the replaced slot changes (on insertion, all
pre-existing entries survive as the tail in their original order). -/
theorem update_manifest_frame (m : Json)
    (version checksum timestamp changelog tag_name : String) (m' : Json)
    (h : update_manifest m version checksum timestamp changelog tag_name = Except.ok m') :
    ∃ kvs rest vs vs',
      m = Json.arr (Json.obj kvs :: rest) ∧
      lookupKvs kvs "versions" = some (Json.arr vs) ∧
      m' = Json.arr (Json.obj (setField kvs "versions" (Json.arr vs')) :: rest) ∧
      (setField kvs "versions" (Json.arr vs')).map Prod.fst = kvs.map Prod.fst ∧
      (∀ k, k ≠ "versions" →
        lookupKvs (setField kvs "versions" (Json.arr vs')) k = lookupKvs kvs k) ∧
      (setField kvs "versions" (Json.arr vs')).filter (fun p => p.1 != "versions") =
        kvs.filter (fun p => p.1 != "versions") ∧
      ((findExistingIndex version vs = Except.ok none ∧
          vs' = mkNewVersion version checksum timestamp changelog tag_name :: vs) ∨
        (∃ i, findExistingIndex version vs = Except.ok (some i) ∧
          vs' = vs.set i (mkNewVersion version checksum timestamp changelog tag_name) ∧
          ∀ j, j ≠ i → vs'[j]? = vs[j]?)) := by
  obtain ⟨kvs, rest, vs, hm, hlk, vs', hm', hcase⟩ :=
    update_ok_decompose m version checksum timestamp changelog tag_name m' h
  refine ⟨kvs, rest, vs, vs', hm, hlk, hm',
    mapFst_setField kvs "versions" (Json.arr vs') (Json.arr vs) hlk,
    fun k hk => lookupKvs_setField_ne kvs "versions" k (Json.arr vs') hk,
    filter_setField kvs "versions" (Json.arr vs'), ?_⟩
  rcases hcase with ⟨hfind, hvs'⟩ | ⟨i, hfind, hvs'⟩
  · exact Or.inl ⟨hfind, hvs'⟩
  · refine Or.inr ⟨i, hfind, hvs', fun j hj => ?_⟩
    subst hvs'
    exact List.getElem?_set_ne (fun hh => hj hh.symm)

/-! ### Serialization properties -/

/-- Appending a non-empty string determines the last character. -/
theorem lastChar_append_right (s t : String) (h : t.data ≠ []) :
    lastChar (s ++ t) = lastChar t := by
  simp [lastChar, String.data_append, List.getLast?_append]
  cases hl : t.data.getLast? with
  | none =>
    cases ht : t.data with
    | nil => exact absurd ht h
    | cons c cs => rw [ht] at hl; simp [List.getLast?] at hl
  | some c => simp

/-- A decimal digit character is never a newline. -/
theorem digitChar_ne_newline (n : Nat) (h : n < 10) : digitChar n ≠ '\n' := by
  interval_cases n <;> decide

/-- The last character of a decimal rendering is its last digit. -/
theorem natDigits_getLast (n : Nat) :
    (natDigits n).getLast? = some (digitChar (n % 10)) := by
  rw [natDigits]
  by_cases h : n < 10
  · simp [h, Nat.mod_eq_of_lt h, List.getLast?]
  · simp [h, List.getLast?_concat]

/-- The decimal digits list is never empty. -/
theorem natDigits_ne_nil (n : Nat) : natDigits n ≠ [] := by
  intro hh
  have := natDigits_getLast n
  rw [hh] at this
  simp [List.getLast?] at this

/-- An integer rendering never ends in a newline. -/
theorem lastChar_intRepr (i : Int) : ∃ c, lastChar (intRepr i) = some c ∧ c ≠ '\n' := by
  refine ⟨digitChar (i.natAbs % 10), ?_, digitChar_ne_newline _ (Nat.mod_lt _ (by omega))⟩
  unfold intRepr
  by_cases h : i < 0
  · rw [if_pos h, lastChar_append_right _ _ (by simpa using natDigits_ne_nil i.natAbs)]
    simpa [lastChar] using natDigits_getLast i.natAbs
  · rw [if_neg h]
    simpa [lastChar] using natDigits_getLast i.natAbs

/-- A JSON string literal ends with the closing quote. -/
theorem lastChar_encodeString (s : String) : lastChar (encodeString s) = some '"' := by
  unfold encodeString
  rw [lastChar_append_right _ "\"" (by decide)]
  decide

/-- No serialized JSON value ends in a newline: every constructor's
rendering ends with a bracket, a quote, a digit or a keyword letter. -/
theorem lastChar_dumpJson (level : Nat) (m : Json) :
    ∃ c, lastChar (dumpJson level m) = some c ∧ c ≠ '\n' := by
  cases m with
  | null => exact ⟨'l', by simp [dumpJson]; decide, by decide⟩
  | bool b => cases b with
    | true => exact ⟨'e', by simp [dumpJson]; decide, by decide⟩
    | false => exact ⟨'e', by simp [dumpJson]; decide, by decide⟩
  | num n =>
    obtain ⟨c, hc, hne⟩ := lastChar_intRepr n
    exact ⟨c, by simpa [dumpJson] using hc, hne⟩
  | str s => exact ⟨'"', by simpa [dumpJson] using lastChar_encodeString s, by decide⟩
  | arr xs => cases xs with
    | nil => exact ⟨']', by simp [dumpJson]; decide, by decide⟩
    | cons x rest =>
      refine ⟨']', ?_, by decide⟩
      rw [show dumpJson level (Json.arr (x :: rest)) =
        "[\n" ++ dumpElems (level + 1) x rest ++ "\n" ++ spaces (4 * level) ++ "]" from by
          simp [dumpJson]]
      rw [lastChar_append_right _ "]" (by decide)]
      decide
  | obj kvs => cases kvs with
    | nil => exact ⟨'\x7d', by simp [dumpJson]; decide, by decide⟩
    | cons e rest =>
      refine ⟨'\x7d', ?_, by decide⟩
      rw [show dumpJson level (Json.obj (e :: rest)) =
        "\x7b\n" ++ dumpFields (level + 1) e rest ++ "\n" ++ spaces (4 * level) ++ "\x7d" from by
          simp [dumpJson]]
      rw [lastChar_append_right _ "\x7d" (by decide)]
      decide

/-- The bytes written to disk end in exactly one newline: the dumped JSON
text does not end in a newline and the script appends a single one. -/
theorem trailingNewlineCount_writtenFile (m : Json) :
    trailingNewlineCount (writtenFile m) = 1 := by
  obtain ⟨c, hc, hne⟩ := lastChar_dumpJson 0 m
  unfold trailingNewlineCount writtenFile
  rw [String.data_append]
  rw [show ("\n" : String).data = ['\n'] from rfl]
  rw [List.reverse_append]
  rw [show (['\n'] : List Char).reverse = ['\n'] from rfl]
  rw [List.singleton_append, List.takeWhile_cons]
  simp only [decide_eq_true_eq, if_pos rfl]
  cases hrev : (dumpJson 0 m).data.reverse with
  | nil => simp
  | cons d ds =>
    have hd : d = c := by
      have := List.head?_reverse (dumpJson 0 m).data
      rw [hrev] at this
      unfold lastChar at hc
      rw [hc] at this
      simpa using this
    subst hd
    rw [List.takeWhile_cons]
    simp [hne]

/-- The accumulator of `String.intercalate.go` factors out on the left. -/
theorem intercalate_go_append (x y s : String) (l : List String) :
    String.intercalate.go (x ++ y) s l = x ++ String.intercalate.go y s l := by
  induction l generalizing y with
  | nil => simp [String.intercalate.go]
  | cons a as ih =>
    rw [String.intercalate.go, String.intercalate.go]
    rw [show x ++ y ++ s ++ a = x ++ (y ++ s ++ a) by
      rw [String.append_assoc, String.append_assoc, String.append_assoc]]
    exact ih (y ++ s ++ a)

/-- Unfolding one separator of `String.intercalate`. -/
theorem intercalate_cons_cons (s a b : String) (l : List String) :
    String.intercalate s (a :: b :: l) = a ++ s ++ String.intercalate s (b :: l) := by
  rw [String.intercalate, String.intercalate, String.intercalate.go]
  exact intercalate_go_append (a ++ s) b s l

/-- The fields of a non-empty object are rendered one per line, in entry
order, each indented by `4 * level` spaces as `"key": value`, separated by
commas. -/
theorem dumpFields_intercalate (level : Nat) (e : String × Json)
    (es : List (String × Json)) :
    dumpFields level e es = String.intercalate ",\n"
      ((e :: es).map (fun p =>
        spaces (4 * level) ++ encodeString p.1 ++ ": " ++ dumpJson level p.2)) := by
  induction es generalizing e with
  | nil =>
    obtain ⟨k, v⟩ := e
    simp [dumpFields, String.intercalate, String.intercalate.go]
  | cons f fs ih =>
    obtain ⟨k, v⟩ := e
    rw [List.map_cons, List.map_cons, intercalate_cons_cons]
    have hf := ih f
    rw [List.map_cons] at hf
    rw [← hf]
    simp [dumpFields]

set_option maxRecDepth 10000 in
/-- C8: on success the whole document is written back to the fixed path
`manifest.json`: the content is the document serialized with
4-space-per-level indentation, object fields emitted in in-memory order,
followed by a single trailing newline; shown both in general (field order,
separator and indentation of every non-empty object; exactly one trailing
newline) and on a concrete manifest. -/
theorem writtenFile_serialization :
    manifestPath = "manifest.json" ∧
    (∀ m, writtenFile m = dumpJson 0 m ++ "\n") ∧
    (∀ m, trailingNewlineCount (writtenFile m) = 1) ∧
    (∀ level e es, dumpFields level e es = String.intercalate ",\n"
      ((e :: es).map (fun p =>
        spaces (4 * level) ++ encodeString p.1 ++ ": " ++ dumpJson level p.2))) ∧
    writtenFile sampleManifest =
      "[\n    \x7b\n        \"name\": \"SubsRO\",\n        \"versions\": [\n            \x7b\n                \"version\": \"1.0\",\n                \"changelog\": \"initial release\",\n                \"targetAbi\": \"10.11.5.0\",\n                \"sourceUrl\": \"https://example.invalid/jellyfin-subsro-1.0.zip\",\n                \"checksum\": \"c0\",\n                \"timestamp\": \"t0\"\n            \x7d\n        ]\n    \x7d\n]\n" := by
  refine ⟨rfl, fun m => rfl, trailingNewlineCount_writtenFile, dumpFields_intercalate, ?_⟩
  simp only [writtenFile, sampleManifest, sampleEntry, dumpJson, dumpElems, dumpFields]
  decide

/-! ### Witnesses: the theorems instantiated on concrete runs -/

theorem update_manifest_exactly_one_matching_entry_witness :
    (∀ s, ([sampleEntry] : List Json).countP (hasVer s) ≤ 1) ∧
    ∃ m', update_manifest sampleManifest "1.1" "abc" "t1" "notes" "v1.1" = Except.ok m' ∧
      ∃ vs', versionsOf m' = some vs' ∧
        vs'.countP (hasVer "1.1") = 1 ∧
        ∀ v ∈ vs', hasVer "1.1" v = true →
          v = mkNewVersion "1.1" "abc" "t1" "notes" "v1.1" ∧
          v.lookup "checksum" = some (Json.str "abc") ∧
          v.lookup "changelog" = some (Json.str "notes") ∧
          v.lookup "timestamp" = some (Json.str "t1") ∧
          v.lookup "sourceUrl" = some (Json.str (sourceUrlFor "v1.1" "1.1")) :=
  ⟨fun s => by simpa using List.countP_le_length (hasVer s), _, rfl,
    update_manifest_exactly_one_matching_entry sampleManifest "1.1" "abc" "t1" "notes" "v1.1"
      _ rfl [sampleEntry] rfl (fun s => by simpa using List.countP_le_length (hasVer s))⟩

theorem update_manifest_insert_or_replace_position_witness :
    ∃ m', update_manifest sampleManifest "1.1" "abc" "t1" "notes" "v1.1" = Except.ok m' ∧
      ∃ vs', versionsOf m' = some vs' ∧
        (((∀ v ∈ ([sampleEntry] : List Json), hasVer "1.1" v = false) →
            vs' = mkNewVersion "1.1" "abc" "t1" "notes" "v1.1" :: [sampleEntry] ∧
            vs'[0]? = some (mkNewVersion "1.1" "abc" "t1" "notes" "v1.1") ∧
            ∀ k, vs'[k + 1]? = ([sampleEntry] : List Json)[k]?) ∧
          (∀ i e, ([sampleEntry] : List Json)[i]? = some e → hasVer "1.1" e = true →
            (∀ j, j < i → ∀ w, ([sampleEntry] : List Json)[j]? = some w →
              hasVer "1.1" w = false) →
            vs' = ([sampleEntry] : List Json).set i
              (mkNewVersion "1.1" "abc" "t1" "notes" "v1.1") ∧
            vs'.length = ([sampleEntry] : List Json).length ∧
            vs'[i]? = some (mkNewVersion "1.1" "abc" "t1" "notes" "v1.1"))) :=
  ⟨_, rfl, _, rfl,
    update_manifest_insert_or_replace_position sampleManifest "1.1" "abc" "t1" "notes" "v1.1"
      _ rfl [sampleEntry] rfl _ rfl⟩

theorem update_manifest_idempotent_witness :
    ∃ m₁, update_manifest sampleManifest "1.1" "abc" "t1" "notes" "v1.1" = Except.ok m₁ ∧
      (update_manifest m₁ "1.1" "abc" "t1" "notes" "v1.1" = Except.ok m₁ ∧
        ∃ m₂, update_manifest m₁ "1.1" "abc" "t1" "notes" "v1.1" = Except.ok m₂ ∧
          writtenFile m₂ = writtenFile m₁) :=
  ⟨_, rfl,
    update_manifest_idempotent sampleManifest "1.1" "abc" "t1" "notes" "v1.1" _ rfl⟩

theorem update_manifest_at_most_one_and_preserves_witness :
    ∃ m', update_manifest sampleManifest "1.0" "c9" "t9" "fix" "v1.0" = Except.ok m' ∧
      ∃ vs', versionsOf m' = some vs' ∧
        (∀ s, vs'.countP (hasVer s) ≤ 1) ∧
        (∀ s, (∃ v ∈ ([sampleEntry] : List Json), hasVer s v = true) →
          ∃ v ∈ vs', hasVer s v = true) :=
  ⟨_, rfl,
    update_manifest_at_most_one_and_preserves sampleManifest "1.0" "c9" "t9" "fix" "v1.0"
      _ rfl [sampleEntry] rfl (fun s => by simpa using List.countP_le_length (hasVer s))⟩

theorem update_manifest_duplicates_keep_later_witness :
    ∃ m', update_manifest dupManifest "1.0" "c9" "t9" "fix" "v1.0" = Except.ok m' ∧
      ∃ vs', versionsOf m' = some vs' ∧
        vs' = ([dupEntryA, dupEntryB] : List Json).set 0
          (mkNewVersion "1.0" "c9" "t9" "fix" "v1.0") ∧
        vs'[1]? = some dupEntryB ∧
        (∀ k, k ≠ 0 → vs'[k]? = ([dupEntryA, dupEntryB] : List Json)[k]?) ∧
        2 ≤ vs'.countP (hasVer "1.0") :=
  ⟨_, rfl,
    update_manifest_duplicates_keep_later dupManifest "1.0" "c9" "t9" "fix" "v1.0" _ rfl
      [dupEntryA, dupEntryB] rfl 0 dupEntryA rfl rfl
      (fun j hj => absurd hj (by omega)) 1 dupEntryB (by omega) rfl rfl⟩

theorem update_manifest_frame_witness :
    ∃ m', update_manifest sampleManifest "1.1" "abc" "t1" "notes" "v1.1" = Except.ok m' ∧
      ∃ kvs rest vs vs',
        sampleManifest = Json.arr (Json.obj kvs :: rest) ∧
        lookupKvs kvs "versions" = some (Json.arr vs) ∧
        m' = Json.arr (Json.obj (setField kvs "versions" (Json.arr vs')) :: rest) ∧
        (setField kvs "versions" (Json.arr vs')).map Prod.fst = kvs.map Prod.fst ∧
        (∀ k, k ≠ "versions" →
          lookupKvs (setField kvs "versions" (Json.arr vs')) k = lookupKvs kvs k) ∧
        (setField kvs "versions" (Json.arr vs')).filter (fun p => p.1 != "versions") =
          kvs.filter (fun p => p.1 != "versions") ∧
        ((findExistingIndex "1.1" vs = Except.ok none ∧
            vs' = mkNewVersion "1.1" "abc" "t1" "notes" "v1.1" :: vs) ∨
          (∃ i, findExistingIndex "1.1" vs = Except.ok (some i) ∧
            vs' = vs.set i (mkNewVersion "1.1" "abc" "t1" "notes" "v1.1") ∧
            ∀ j, j ≠ i → vs'[j]? = vs[j]?)) :=
  ⟨_, rfl,
    update_manifest_frame sampleManifest "1.1" "abc" "t1" "notes" "v1.1" _ rfl⟩
